import Mathlib

/-!
# Verification of the chunked subtitle-video assembly pipeline

Shallow embedding of the timing, partitioning, layout, wrapping, font
selection and concatenation logic of `chunk_builder.py` and
`subtitle_video.py`, with theorems settling the specification claims.

Durations are modelled as rationals (`ℚ`); pixel sizes as integers;
Python strings as `List Char`.
-/

namespace ChunkBuilder

/-- One record of `lines.json`: `[spk, line1, line2, dur]`
(`chunk_builder.py` docstring / `build_video` docstring). -/
structure Line where
  speaker : List Char
  line1   : List Char
  line2   : List Char
  dur     : ℚ
deriving DecidableEq, Repr

/-- Python `durations = [row[-1] for row in lines]` (`chunk_builder.py:141`). -/
def durations (lines : List Line) : List ℚ := lines.map (·.dur)

/-- Python `cumulative = [0]; for d in durations: cumulative.append(cumulative[-1] + d)`
(`chunk_builder.py:142-144`).  No clamping of negative durations happens. -/
def cumulative (ds : List ℚ) : List ℚ := ds.scanl (fun acc d => acc + d) 0

/-- Python `parts = [lines[i:i+LINES_PER] for i in range(0, len(lines), LINES_PER)]`
(`chunk_builder.py:138`).  `range(0, n, L)` enumerates `0, L, 2L, …` with
`⌈n/L⌉ = (n + L - 1) / L` entries, and `lines[i:i+L]` is `(drop i).take L`. -/
def parts (L : ℕ) (lines : List α) : List (List α) :=
  (List.range ((lines.length + L - 1) / L)).map fun idx =>
    (lines.drop (idx * L)).take L

/-- The per-chunk window of the render loop (`chunk_builder.py:167-168`):
`t_start = cumulative[idx * LINES_PER]`,
`t_end   = cumulative[idx * LINES_PER + len(chunk)]`. -/
def chunkWindow (L : ℕ) (lines : List Line) (idx : ℕ) (chunk : List Line) : ℚ × ℚ :=
  ((cumulative (durations lines)).getD (idx * L) 0,
   (cumulative (durations lines)).getD (idx * L + chunk.length) 0)

/-- `for idx, chunk in enumerate(parts): …` (`chunk_builder.py:165-196`):
the windows of all chunks, in loop order. -/
def chunkWindows (L : ℕ) (lines : List Line) : List (ℚ × ℚ) :=
  (parts L lines).enum.map fun p => chunkWindow L lines p.1 p.2

/-- `part_files` after the render loop (`chunk_builder.py:196`): one entry is
appended per chunk, unconditionally — no chunk is ever dropped, whatever its
computed duration `t_len = t_end - t_start`. -/
def renderedParts (L : ℕ) (lines : List Line) : List (ℕ × ℚ × ℚ) :=
  (parts L lines).enum.map fun p =>
    (p.1, chunkWindow L lines p.1 p.2)

/-- Scenario A of the spec: five lines with durations `[2.0, 1.5, 3.0, 0.5, 2.0]`. -/
def exLines : List Line :=
  [⟨['A'], [], [], 2⟩, ⟨['B'], [], [], 3/2⟩, ⟨['A'], [], [], 3⟩,
   ⟨['B'], [], [], 1/2⟩, ⟨['A'], [], [], 2⟩]

/-- A line sequence whose first line has duration `0`: its chunk (at
`LINES_PER = 1`) gets a zero-length window. -/
def zeroLines : List Line := [⟨['A'], [], [], 0⟩, ⟨['B'], [], [], 1⟩]

/-- A line sequence in which every chunk has a zero-length window. -/
def allZeroLines : List Line := [⟨['A'], [], [], 0⟩]

end ChunkBuilder

namespace SubtitleVideo

/-- Layout constants of `subtitle_video.py:14-26`. -/
def SCREEN_W : ℤ := 1080
def SCREEN_H : ℤ := 1920
def TEXT_W : ℤ := 880
def POS_Y : ℤ := 920
def LINE_GAP : ℤ := 28
def BOTTOM_MARGIN : ℤ := 40
def PAD_X : ℤ := 22
def PAD_Y : ℤ := 16
def FONT_SIZE_TOP : ℤ := 50
def FONT_SIZE_BOT : ℤ := 45
def MAX_TOP_LINES : ℕ := 3
def MAX_BOT_LINES : ℕ := 3
def MIN_FONT_SIZE : ℤ := 28

/-- Caption block height (`subtitle_video.py:101-103`): `block_h = top_h`,
plus `LINE_GAP + bot_h` when `rows >= 2`. -/
def blockHeight (top_h bot_h : ℤ) (rows : ℕ) : ℤ :=
  if 2 ≤ rows then top_h + (LINE_GAP + bot_h) else top_h

/-- The vertical overflow of the block past the safe budget
(`subtitle_video.py:104`): `POS_Y + block_h + BOTTOM_MARGIN - SCREEN_H`. -/
def blockOverflow (top_h bot_h : ℤ) (rows : ℕ) : ℤ :=
  POS_Y + blockHeight top_h bot_h rows + BOTTOM_MARGIN - SCREEN_H

/-- Python `_fit_block_height(top_h, bot_h, rows, fs_top, fs_bot)`
(`subtitle_video.py:99-111`): if the block overflows, shrink both font sizes
by `scale = max(0.8, min(0.95, 1 - overflow / max(1, block_h)))`, clamped at
`MIN_FONT_SIZE` from below via `max`, flooring the scaled sizes. -/
def fitBlockHeight (top_h bot_h : ℤ) (rows : ℕ) (fs_top fs_bot : ℤ) : ℤ × ℤ × ℤ :=
  let overflow := blockOverflow top_h bot_h rows
  if overflow ≤ 0 then (fs_top, fs_bot, 0)
  else
    let scale : ℚ :=
      max (4/5) (min (19/20)
        (1 - (overflow : ℚ) / ((max 1 (blockHeight top_h bot_h rows) : ℤ) : ℚ)))
    (max MIN_FONT_SIZE ⌊(fs_top : ℚ) * scale⌋,
     max MIN_FONT_SIZE ⌊(fs_bot : ℚ) * scale⌋,
     overflow)

/-- The fit pass of `build_video` (`subtitle_video.py:208-232`), with the
external text renderer abstracted as a measure oracle `m` mapping the two
font sizes to the measured backdrop heights `(top_bg.h, bot_bg.h)`:
measure once at the base sizes, call `_fit_block_height` once, and rebuild
(re-measure) once if and only if a size changed.  The result is
`(fs_top, fs_bot, top_h, bot_h)` as used by the placement code. -/
def layoutFit (m : ℤ → ℤ → ℤ × ℤ) (rows : ℕ) (fs_top fs_bot : ℤ) : ℤ × ℤ × ℤ × ℤ :=
  let h1 := m fs_top fs_bot
  let r := fitBlockHeight h1.1 h1.2 rows fs_top fs_bot
  if r.1 ≠ fs_top ∨ (2 ≤ rows ∧ r.2.1 ≠ fs_bot) then
    let h2 := m r.1 r.2.1
    (r.1, r.2.1, h2.1, h2.2)
  else
    (r.1, r.2.1, h1.1, h1.2)

/-- Vertical extent of one composited overlay element: its y position and
height.  Widths and x positions are irrelevant to the bottom-margin bound. -/
structure VSpan where
  y : ℤ
  h : ℤ
deriving DecidableEq, Repr

/-- The semi-transparent backdrop `_bg(txt)` is `txt.h + PAD_Y * 2` pixels
tall (`subtitle_video.py:92-96`). -/
def bgHeight (clip_h : ℤ) : ℤ := clip_h + PAD_Y * 2

/-- Vertical placement of one caption block (`subtitle_video.py:234-252`),
from the clip heights `tch` (top) and `bch` (bottom): `top_bg` at
`POS_Y - PAD_Y`, `top_clip` at `POS_Y`, `y_cursor = POS_Y + top_bg.h`; with
two rows `y_bot = y_cursor + LINE_GAP`, `bot_bg` at `y_bot - PAD_Y`,
`bot_clip` at `y_bot`, `y_cursor = y_bot + bot_bg.h`; finally
`overflow2 = y_cursor + BOTTOM_MARGIN - SCREEN_H`, and if positive every
element is shifted up by `overflow2`. -/
def placeBlock (rows : ℕ) (tch bch : ℤ) : List VSpan :=
  let top_bg_h := bgHeight tch
  let elem0 : List VSpan := [⟨POS_Y - PAD_Y, top_bg_h⟩, ⟨POS_Y, tch⟩]
  let y_cursor0 := POS_Y + top_bg_h
  let st :=
    if 2 ≤ rows then
      let y_bot := y_cursor0 + LINE_GAP
      let bot_bg_h := bgHeight bch
      (elem0 ++ [⟨y_bot - PAD_Y, bot_bg_h⟩, ⟨y_bot, bch⟩], y_bot + bot_bg_h)
    else (elem0, y_cursor0)
  let overflow2 := st.2 + BOTTOM_MARGIN - SCREEN_H
  if 0 < overflow2 then st.1.map (fun c => ⟨c.y - overflow2, c.h⟩) else st.1

/-- The read-only external facts consulted by `pick_font`
(`subtitle_video.py:74-89`): the Unicode name table (`unicodedata.name`,
with `""` default), the filesystem (`os.path.isfile`), and the font
directory prefix (`FONT_DIR`).  They are fixed configuration for a run; the
code never writes to any of them. -/
structure FontEnv where
  nameOf  : Char → List Char
  isfile  : List Char → Bool
  fontDir : List Char

/-- Path constant `FONT_LATN` (`subtitle_video.py:10`). -/
def FONT_LATN (env : FontEnv) : List Char := env.fontDir ++ "/RobotoSerif_36pt-Bold.ttf".data

/-- Path constant `FONT_JP` (`subtitle_video.py:11`). -/
def FONT_JP (env : FontEnv) : List Char := env.fontDir ++ "/NotoSansJP-Bold.ttf".data

/-- Path constant `FONT_KO` (`subtitle_video.py:12`). -/
def FONT_KO (env : FontEnv) : List Char := env.fontDir ++ "/malgunbd.ttf".data

/-- Python `_first_existing(paths)` (`subtitle_video.py:74-78`): the first
path that is non-empty and exists on disk, else `None`. -/
def firstExisting (env : FontEnv) : List (List Char) → Option (List Char)
  | [] => none
  | p :: ps => if p ≠ [] ∧ env.isfile p then some p else firstExisting env ps

/-- Python's substring test `needle in hay` on strings. -/
def isSubstring (needle hay : List Char) : Bool :=
  hay.tails.any (fun t => needle.isPrefixOf t)

/-- Python `pick_font(text)` (`subtitle_video.py:80-89`): scan the text; the
first character whose Unicode name contains `HANGUL` selects the Korean
chain, the first whose name contains `CJK`, `HIRAGANA` or `KATAKANA` selects
the Japanese chain; otherwise, after the loop, the Latin chain; each chain
falls back to `FONT_LATN` when nothing exists. -/
def pickFont (env : FontEnv) : List Char → List Char
  | [] => (firstExisting env [FONT_LATN env, FONT_JP env, FONT_KO env]).getD (FONT_LATN env)
  | ch :: rest =>
    let name := env.nameOf ch
    if isSubstring "HANGUL".data name then
      (firstExisting env [FONT_KO env, FONT_JP env, FONT_LATN env]).getD (FONT_LATN env)
    else if isSubstring "CJK".data name ∨ isSubstring "HIRAGANA".data name ∨
        isSubstring "KATAKANA".data name then
      (firstExisting env [FONT_JP env, FONT_LATN env]).getD (FONT_LATN env)
    else pickFont env rest

/-- One `pick_font` call in a stateful embedding: the call returns its result
together with the (unchanged) environment — the source performs only reads. -/
def pickFontCall (env : FontEnv) (text : List Char) : List Char × FontEnv :=
  (pickFont env text, env)

/-- The duration defaulting of `build_video` (`subtitle_video.py:150-155`):
`dur = float(entry[3]) if len(entry) > 3 else 1.0`, then
`if dur <= 0: dur = 0.8`.  `durField` is `entry[3]` when the record has one. -/
def clipDuration (durField : Option ℚ) : ℚ :=
  let dur := durField.getD 1
  if dur ≤ 0 then 4/5 else dur

/-- Video duration of one rendered segment (`subtitle_video.py:255-259`):
`concatenate_videoclips` of the per-line clips, each held for its
(defaulted) duration via `with_duration(dur)`. -/
def segmentVideoDuration (ds : List ℚ) : ℚ :=
  (ds.map (fun d => clipDuration (some d))).sum

end SubtitleVideo

namespace ChunkBuilder

/-- The fast stream-copy concat command (`chunk_builder.py:215-222`). -/
def fastConcatCmd (concatTxt finalMp4 : List Char) : List (List Char) :=
  ["ffmpeg".data, "-y".data, "-f".data, "concat".data, "-safe".data, "0".data,
   "-i".data, concatTxt, "-c".data, "copy".data,
   "-movflags".data, "+faststart".data, finalMp4]

/-- The re-encode concat command of the except-branch
(`chunk_builder.py:225-233`). -/
def reencodeConcatCmd (concatTxt finalMp4 : List Char) : List (List Char) :=
  ["ffmpeg".data, "-y".data, "-f".data, "concat".data, "-safe".data, "0".data,
   "-i".data, concatTxt,
   "-c:v".data, "libx264".data, "-preset".data, "medium".data, "-crf".data, "18".data,
   "-c:a".data, "aac".data, "-b:a".data, "192k".data,
   "-movflags".data, "+faststart".data, finalMp4]

/-- Outcome of the concatenation stage. -/
inductive ConcatOutcome
  | copied
  | reencoded
  | failed
deriving DecidableEq, Repr

/-- The try/except around the final concat (`chunk_builder.py:214-233`): run
the fast stream-copy join; on `CalledProcessError` run the re-encode join
(whose own `check=True` failure propagates and aborts).  `run` abstracts
`subprocess.run`, `true` meaning exit code 0. -/
def concatResolve (run : List (List Char) → Bool) (concatTxt finalMp4 : List Char) :
    ConcatOutcome :=
  if run (fastConcatCmd concatTxt finalMp4) then .copied
  else if run (reencodeConcatCmd concatTxt finalMp4) then .reencoded
  else .failed

end ChunkBuilder

namespace SubtitleVideo

/-! Model of CPython's `textwrap` module for the configurations used by
`wrap_cjk` and `wrap_latn` (`subtitle_video.py:42-55`): default options
except `break_long_words` / `break_on_hyphens` as passed at the call sites
(`expand_tabs=True`, `replace_whitespace=True`, `drop_whitespace=True`,
empty indents, `max_lines=None`).  Loops whose Python termination argument
is extrinsic take an explicit fuel bound, always called with enough fuel for
the input at hand. -/

/-- The six-character wrapper whitespace set `_whitespace` (tab, newline,
vertical tab, form feed, carriage return, space), used both by the
replace-whitespace translation table and by the word-separation regex. -/
def wsChar (c : Char) : Bool :=
  c == '\t' || c == '\n' || c == '\x0b' || c == '\x0c' || c == '\r' || c == ' '

/-- Unicode whitespace as recognised by Python's `str.strip`/`str.isspace`
(ASCII whitespace, the C1 separators, NEL, NBSP, and the Unicode space
code points). -/
def pySpace (c : Char) : Bool :=
  c == ' ' || c == '\t' || c == '\n' || c == '\r' || c == '\x0b' || c == '\x0c' ||
  (0x1c ≤ c.val && c.val ≤ 0x1f) || c.val == 0x85 || c.val == 0xa0 ||
  c.val == 0x1680 || (0x2000 ≤ c.val && c.val ≤ 0x200a) ||
  c.val == 0x2028 || c.val == 0x2029 || c.val == 0x202f || c.val == 0x205f ||
  c.val == 0x3000

/-- Python's regex word-character class, restricted to the scripts this
program handles: ASCII alphanumerics and underscore, kana, CJK unified
ideographs, Hangul syllables. -/
def pyWordChar (c : Char) : Bool :=
  ('a' ≤ c && c ≤ 'z') || ('A' ≤ c && c ≤ 'Z') || ('0' ≤ c && c ≤ '9') || c == '_' ||
  (0x3040 ≤ c.val && c.val ≤ 0x30ff) ||
  (0x4e00 ≤ c.val && c.val ≤ 0x9fff) ||
  (0xac00 ≤ c.val && c.val ≤ 0xd7a3)

/-- The letter class of `textwrap.wordsep_re` (word characters that are not
digits). -/
def pyLetter (c : Char) : Bool := pyWordChar c && !('0' ≤ c && c ≤ '9')

/-- The word-punctuation class of `textwrap.wordsep_re` (word characters
plus a few punctuation marks). -/
def pyWordPunct (c : Char) : Bool :=
  pyWordChar c || c == '!' || c == '"' || c == '\'' || c == '&' ||
  c == '.' || c == ',' || c == '?'

/-- Letter test through `Option` (for look-arounds that may fall off an end
of the text). -/
def pyLetterO : Option Char → Bool
  | some c => pyLetter c
  | none => false

/-- Word-character test through `Option`. -/
def pyWordCharO : Option Char → Bool
  | some c => pyWordChar c
  | none => false

/-- Word-punctuation test through `Option`. -/
def pyWordPunctO : Option Char → Bool
  | some c => pyWordPunct c
  | none => false

/-- Python `str.expandtabs(tabsize)`: each tab becomes spaces up to the next
multiple of `tabsize`; the column counter resets on `\n` and `\r`. -/
def expandTabsGo (ts : ℕ) : ℕ → List Char → List Char
  | _, [] => []
  | col, c :: cs =>
    if c = '\t' then
      List.replicate (ts - col % ts) ' ' ++ expandTabsGo ts (col + (ts - col % ts)) cs
    else if c = '\n' ∨ c = '\r' then c :: expandTabsGo ts 0 cs
    else c :: expandTabsGo ts (col + 1) cs

/-- Python `TextWrapper._munge_whitespace`: expand tabs, then translate each
wrapper-whitespace character to a plain space. -/
def munge (text : List Char) : List Char :=
  (expandTabsGo 8 0 text).map (fun c => if wsChar c then ' ' else c)

/-- Length of the leading run of hyphens. -/
def hyphenRun : List Char → ℕ
  | '-' :: cs => hyphenRun cs + 1
  | _ => 0

/-- The em-dash lookahead of `wordsep_re`: at least two hyphens ahead, with a
word character right after the (maximal) hyphen run — hyphens inside the run
are not word characters, so only the full run can satisfy the pattern. -/
def emDashAhead (rest : List Char) : Bool :=
  2 ≤ hyphenRun rest && pyWordCharO (rest[hyphenRun rest]?)

/-- The hyphenated-word break of `wordsep_re` at a boundary about to consume
a hyphen: one of the two look-behinds (two letters then the hyphen, or
letter-hyphen-letter then the hyphen) and the lookahead
(letter, optional hyphen, letter) on the text after the hyphen.  `back`
lists the characters before the hyphen, nearest first. -/
def hyphBreakOk (back rest2 : List Char) : Bool :=
  ((pyLetterO back[0]? && pyLetterO back[1]?) ||
   (pyLetterO back[0]? && back[1]? == some '-' && pyLetterO back[2]?)) &&
  (pyLetterO rest2[0]? &&
    (pyLetterO rest2[1]? || (rest2[1]? == some '-' && pyLetterO rest2[2]?)))

/-- The non-greedy word alternative of `wordsep_re` (a non-empty
non-whitespace run followed by the hyphen break, the end-of-word lookahead,
or the em-dash lookahead): extend the chunk one character at a time and stop
at the first boundary where one of the three inner alternatives matches,
tried in regex order.  `prevAll` holds the characters before the word start
(nearest first); `wordRev` is the non-empty consumed part, reversed.
Returns the finished token and the unconsumed rest. -/
def wordScan (prevAll : List Char) : List Char → List Char → List Char × List Char
  | wordRev, [] => (wordRev.reverse, [])
  | wordRev, c :: cs =>
    if c = '-' ∧ hyphBreakOk (wordRev ++ prevAll) cs then
      (('-' :: wordRev).reverse, cs)
    else if wsChar c then
      (wordRev.reverse, c :: cs)
    else if pyWordPunctO wordRev[0]? ∧ emDashAhead (c :: cs) then
      (wordRev.reverse, c :: cs)
    else
      wordScan prevAll (c :: wordRev) cs

/-- The token scan of the `wordsep_re` split (empty pieces filtered out),
one token per fuel step: a maximal wrapper-whitespace run, an em-dash token
(two or more hyphens preceded by word punctuation and followed by a word
character), or a word via `wordScan`.  `prevRev` holds the consumed text
(nearest first) for the look-behinds.  Every token consumes at least one
character, so fuel `length + 1` never runs out. -/
def splitGo (fuel : ℕ) (prevRev rest : List Char) : List (List Char) :=
  match fuel, rest with
  | 0, _ => []
  | _ + 1, [] => []
  | fuel + 1, c :: cs =>
    if wsChar c then
      (c :: cs).takeWhile wsChar ::
        splitGo fuel (((c :: cs).takeWhile wsChar).reverse ++ prevRev)
          ((c :: cs).dropWhile wsChar)
    else if c = '-' ∧ pyWordPunctO prevRev[0]? ∧ emDashAhead (c :: cs) then
      List.replicate (hyphenRun (c :: cs)) '-' ::
        splitGo fuel (List.replicate (hyphenRun (c :: cs)) '-' ++ prevRev)
          ((c :: cs).drop (hyphenRun (c :: cs)))
    else
      (wordScan prevRev [c] cs).1 ::
        splitGo fuel ((wordScan prevRev [c] cs).1.reverse ++ prevRev)
          (wordScan prevRev [c] cs).2

/-- Python `TextWrapper._split` applied to munged text. -/
def splitChunks (s : List Char) : List (List Char) := splitGo (s.length + 1) [] s

/-- Python `chunk.strip() == ''`: every character is whitespace. -/
def isBlank (cs : List Char) : Bool := cs.all pySpace

/-- Python `chunk.rfind('-', 0, stop)`: the greatest index below `stop`
holding a hyphen, if any. -/
def rfindHyphenBefore (cs : List Char) (stop : ℕ) : Option ℕ :=
  ((List.range (min stop cs.length)).filter (fun i => cs[i]? == some '-')).getLast?

/-- Python `TextWrapper._handle_long_word`: chop the head chunk at the free
space (preferring the last hyphen inside it when `break_on_hyphens`), or
take the whole chunk when long words are kept whole and the line is still
empty, or leave everything for the next line.  Returns the updated current
line and the replacement head chunk (`none` when the chunk was consumed). -/
def handleLongWord (width : ℕ) (blw boh : Bool) (chunk : List Char)
    (curLine : List (List Char)) (curLen : ℕ) :
    List (List Char) × Option (List Char) :=
  let spaceLeft := if width < 1 then 1 else width - curLen
  if blw then
    let endIdx :=
      if boh ∧ spaceLeft < chunk.length then
        match rfindHyphenBefore chunk spaceLeft with
        | some hyphen =>
          if 0 < hyphen ∧ (chunk.take hyphen).any (fun ch => ch ≠ '-') then hyphen + 1
          else spaceLeft
        | none => spaceLeft
      else spaceLeft
    (curLine ++ [chunk.take endIdx], some (chunk.drop endIdx))
  else if curLine.isEmpty then
    (curLine ++ [chunk], none)
  else
    (curLine, some chunk)

/-- The inner greedy while-loop of `TextWrapper._wrap_chunks`: move chunks
onto the current line while they fit.  Returns the line, its length and the
remaining chunks. -/
def greedyTake (width : ℕ) : List (List Char) → List (List Char) → ℕ →
    List (List Char) × ℕ × List (List Char)
  | [], curLine, curLen => (curLine, curLen, [])
  | ch :: rest, curLine, curLen =>
    if curLen + ch.length ≤ width then
      greedyTake width rest (curLine ++ [ch]) (curLen + ch.length)
    else
      (curLine, curLen, ch :: rest)

/-- The outer while-loop of `TextWrapper._wrap_chunks` (empty indents,
`drop_whitespace=True`, `max_lines=None`): per iteration, drop a leading
all-whitespace chunk once at least one line exists, fill the line greedily,
split an over-long head chunk, drop a trailing all-whitespace piece, and
emit the joined line if non-empty.  `acc` collects lines in reverse.  Every
iteration consumes input or emits a line, so the fuel used by `pyWrap`
suffices. -/
def wrapChunksGo (width : ℕ) (blw boh : Bool) :
    ℕ → List (List Char) → List (List Char) → List (List Char)
  | 0, _, acc => acc.reverse
  | _ + 1, [], acc => acc.reverse
  | fuel + 1, ch0 :: rest0, acc =>
    let chunks1 := if isBlank ch0 ∧ acc ≠ [] then rest0 else ch0 :: rest0
    let g := greedyTake width chunks1 [] 0
    let hl :=
      match g.2.2 with
      | ch :: rest =>
        if width < ch.length then
          match handleLongWord width blw boh ch g.1 g.2.1 with
          | (cl, some chRem) => (cl, chRem :: rest)
          | (cl, none) => (cl, rest)
        else (g.1, ch :: rest)
      | [] => (g.1, [])
    let curLine2 :=
      match hl.1.getLast? with
      | some lastPiece => if isBlank lastPiece then hl.1.dropLast else hl.1
      | none => hl.1
    let acc2 := if curLine2.isEmpty then acc else curLine2.join :: acc
    wrapChunksGo width blw boh fuel hl.2 acc2

/-- Python `textwrap.wrap(text, width, …)` for the option sets used here. -/
def pyWrap (width : ℕ) (blw boh : Bool) (text : List Char) : List (List Char) :=
  wrapChunksGo width blw boh
    (2 * (((splitChunks (munge text)).map List.length).sum +
      (splitChunks (munge text)).length) + 2)
    (splitChunks (munge text)) []

/-- Join lines with newlines (Python `"\n".join(...)`; `textwrap.fill` is
this applied to `textwrap.wrap`). -/
def joinNL : List (List Char) → List Char
  | [] => []
  | [l] => l
  | l :: l2 :: ls => l ++ '\n' :: joinNL (l2 :: ls)

/-- The CJK character test of `_CJK_RE` (`subtitle_video.py:38`): the
hiragana/katakana block and the CJK unified ideographs. -/
def cjkChar (c : Char) : Bool :=
  (0x3040 ≤ c.val && c.val ≤ 0x30ff) || (0x4e00 ≤ c.val && c.val ≤ 0x9fff)

/-- Python `is_cjk(text)` (`subtitle_video.py:39-40`): the regex search
succeeds when some character is in the CJK ranges. -/
def isCjk (text : List Char) : Bool := text.any cjkChar

/-- Python `wrap_cjk(text, width=16)` (`subtitle_video.py:42-46`):
`textwrap.wrap(text, width, break_long_words=True)` joined by newlines when
the text is CJK, the text unchanged otherwise. -/
def wrapCjk (text : List Char) (width : ℕ) : List Char :=
  if isCjk text then joinNL (pyWrap width true true text) else text

/-- Python `wrap_latn(text, width=36)` (`subtitle_video.py:48-55`):
`textwrap.fill(text or "", width, break_long_words=False,
break_on_hyphens=True)`. -/
def wrapLatn (text : List Char) (width : ℕ) : List Char :=
  joinNL (pyWrap width false true text)

/-- Line-break characters of Python `str.splitlines` (the `\r\n` pair is
handled separately by the scanner). -/
def lineBreakChar (c : Char) : Bool :=
  c == '\n' || c == '\r' || c == '\x0b' || c == '\x0c' ||
  c == '\x1c' || c == '\x1d' || c == '\x1e' || c.val == 0x85 ||
  c.val == 0x2028 || c.val == 0x2029

/-- Python `str.splitlines` scanner: `cur` is the current line reversed; a
`\r\n` pair counts as a single break.  The one-character case inlines the
final step of the scan so that the recursion is structural. -/
def pySplitlinesGo (cur : List Char) : List Char → List (List Char)
  | [] => if cur = [] then [] else [cur.reverse]
  | [c] =>
    if lineBreakChar c then [cur.reverse] else [(c :: cur).reverse]
  | c :: c2 :: cs =>
    if c = '\r' ∧ c2 = '\n' then
      cur.reverse :: pySplitlinesGo [] cs
    else if lineBreakChar c then
      cur.reverse :: pySplitlinesGo [] (c2 :: cs)
    else
      pySplitlinesGo (c :: cur) (c2 :: cs)

/-- Python `str.splitlines()`. -/
def pySplitlines (s : List Char) : List (List Char) := pySplitlinesGo [] s

/-- Python `(text or "").splitlines() or [""]` (`subtitle_video.py:59`). -/
def linesOrEmpty (text : List Char) : List (List Char) :=
  match pySplitlines text with
  | [] => [[]]
  | ls => ls

/-- Python `str.rstrip()`: drop trailing Unicode whitespace. -/
def pyRstrip (s : List Char) : List Char := (s.reverse.dropWhile pySpace).reverse

/-- Python `trim_lines(text, max_lines)` (`subtitle_video.py:57-64`): keep
at most `max_lines` lines; on truncation, right-strip the last kept line and
append the ellipsis.  (For `max_lines = 0` Python would raise an
`IndexError`; the call sites pass 3.) -/
def trimLines (text : List Char) (maxLines : ℕ) : List Char :=
  let ls := linesOrEmpty text
  if ls.length ≤ maxLines then joinNL ls
  else
    let kept := ls.take maxLines
    joinNL (kept.dropLast ++ [pyRstrip (kept.getLast?.getD []) ++ ['…']])

/-- Modelled from the spec's words, for comparison only (C7): wrapping "by
fixed character-count width (no word-boundary concept)" — chop the text
into consecutive `width`-character pieces, ignoring whitespace entirely. -/
def specChopWrap (width : ℕ) (text : List Char) : List Char :=
  joinNL (ChunkBuilder.parts width text)

/-- A 41-character hyphenated compound: 20 letters, a hyphen, 20 letters. -/
def latnCompound : List Char := List.replicate 20 'a' ++ '-' :: List.replicate 20 'b'

/-- A 21-character CJK text with an internal space. -/
def cjkSpaced : List Char := List.replicate 10 'あ' ++ ' ' :: List.replicate 10 'い'

end SubtitleVideo

namespace ChunkBuilder

lemma scanl_add_getD (ds : List ℚ) : ∀ (a : ℚ) (i : ℕ), i ≤ ds.length →
    (ds.scanl (fun acc d => acc + d) a).getD i 0 = a + (ds.take i).sum := by
  induction ds with
  | nil =>
    intro a i hi
    simp only [List.length_nil, Nat.le_zero] at hi
    subst hi
    simp [List.scanl]
  | cons d ds ih =>
    intro a i hi
    cases i with
    | zero => simp [List.scanl]
    | succ i =>
      simp only [List.scanl_cons, List.singleton_append, List.getD_cons_succ,
        List.take_succ_cons, List.sum_cons]
      rw [ih (a + d) i (by simpa using hi)]
      ring

lemma cumulative_getD (ds : List ℚ) (i : ℕ) (hi : i ≤ ds.length) :
    (cumulative ds).getD i 0 = (ds.take i).sum :=
  by simpa using scanl_add_getD ds 0 i hi

lemma cumulative_length (ds : List ℚ) : (cumulative ds).length = ds.length + 1 := by
  simp [cumulative, List.length_scanl]

/-- Telescoping sums over an initial segment of the naturals. -/
lemma range_map_sub_sum (f : ℕ → ℚ) : ∀ k : ℕ,
    ((List.range k).map (fun i => f (i + 1) - f i)).sum = f k - f 0 := by
  intro k
  induction k with
  | zero => simp
  | succ k ih =>
    rw [List.range_succ, List.map_append, List.sum_append, ih]
    simp only [List.map_cons, List.map_nil, List.sum_cons, List.sum_nil]
    ring

/-- The loop of `chunk_builder.py:165` re-expressed over chunk indices:
`enumerate(parts)` pairs each index `idx` with `parts[idx]`. -/
lemma chunkWindows_eq_range (L : ℕ) (lines : List Line) :
    chunkWindows L lines =
      (List.range ((lines.length + L - 1) / L)).map fun idx =>
        chunkWindow L lines idx ((lines.drop (idx * L)).take L) := by
  apply List.ext_getElem
  · simp [chunkWindows, parts]
  · intro i h1 h2
    simp [chunkWindows, parts, List.getElem_enum]

lemma ceilDiv_mul_ge (n L : ℕ) (hL : 0 < L) : n ≤ L * ((n + L - 1) / L) := by
  have h := Nat.div_add_mod (n + L - 1) L
  have h2 : (n + L - 1) % L < L := Nat.mod_lt _ hL
  set a := L * ((n + L - 1) / L) with ha
  omega

lemma lt_ceilDiv_mul_lt (n L idx : ℕ) (hL : 0 < L)
    (hidx : idx < (n + L - 1) / L) : idx * L < n := by
  have h1 : idx + 1 ≤ (n + L - 1) / L := hidx
  have h2 : (idx + 1) * L ≤ n + L - 1 := by
    have := (Nat.le_div_iff_mul_le hL).mp h1
    omega
  have h3 : idx * L + L = (idx + 1) * L := by ring
  omega

end ChunkBuilder

namespace ChunkBuilder

/-- Unfolding step of the partition: for a non-empty list the first chunk is
`take L` and the remaining chunks partition `drop L`. -/
lemma parts_cons {α : Type} (L : ℕ) (hL : 0 < L) (xs : List α) (hxs : xs ≠ []) :
    parts L xs = xs.take L :: parts L (xs.drop L) := by
  have hn : 0 < xs.length := List.length_pos.mpr hxs
  have hk : (xs.length + L - 1) / L = ((xs.drop L).length + L - 1) / L + 1 := by
    rcases Nat.le_total xs.length L with hle | hge
    · have h1 : (xs.length + L - 1) / L = 1 := by
        apply Nat.div_eq_of_lt_le
        · omega
        · omega
      have h2 : (xs.drop L).length = 0 := by simp [List.length_drop]; omega
      rw [h1, h2]
      rw [Nat.div_eq_of_lt (by omega)]
    · have h2 : (xs.drop L).length = xs.length - L := List.length_drop L xs
      have h3 : xs.length + L - 1 = (xs.length - L + L - 1) + L := by omega
      rw [h2, h3, Nat.add_div_right _ hL]
  rw [parts, hk, List.range_succ_eq_map]
  simp only [List.map_cons, Nat.zero_mul, List.drop_zero, List.map_map]
  congr 1
  rw [parts]
  apply List.map_congr_left
  intro i _
  simp only [Function.comp_apply, Nat.succ_eq_add_one]
  rw [List.drop_drop]
  congr 2
  ring

lemma parts_nil {α : Type} (L : ℕ) : parts L ([] : List α) = [] := by
  rw [parts]
  have h : ((List.length ([] : List α)) + L - 1) / L = 0 := by
    cases L with
    | zero => simp
    | succ l =>
      simp only [List.length_nil, Nat.zero_add]
      exact Nat.div_eq_of_lt (by omega)
  rw [h]
  simp

/-- The chunks concatenate back to the original list: the partition is into
consecutive groups. -/
lemma parts_join {α : Type} (L : ℕ) (hL : 0 < L) (xs : List α) :
    (parts L xs).join = xs := by
  have main : ∀ (n : ℕ) (ys : List α), ys.length ≤ n → (parts L ys).join = ys := by
    intro n
    induction n with
    | zero =>
      intro ys hy
      have : ys = [] := List.eq_nil_of_length_eq_zero (by omega)
      subst this
      simp [parts_nil]
    | succ n ih =>
      intro ys hy
      rcases eq_or_ne ys [] with rfl | hne
      · simp [parts_nil]
      · rw [parts_cons L hL ys hne]
        have hlen : (ys.drop L).length ≤ n := by
          have := List.length_pos.mpr hne
          simp [List.length_drop]
          omega
        simp only [List.join_cons, ih (ys.drop L) hlen]
        exact List.take_append_drop L ys
  exact main xs.length xs le_rfl

/-- Every chunk is non-empty and holds at most `L` lines. -/
lemma parts_mem_length {α : Type} (L : ℕ) (hL : 0 < L) (xs : List α) :
    ∀ c ∈ parts L xs, c ≠ [] ∧ c.length ≤ L := by
  have main : ∀ (n : ℕ) (ys : List α), ys.length ≤ n →
      ∀ c ∈ parts L ys, c ≠ [] ∧ c.length ≤ L := by
    intro n
    induction n with
    | zero =>
      intro ys hy c hc
      have : ys = [] := List.eq_nil_of_length_eq_zero (by omega)
      subst this
      simp [parts_nil] at hc
    | succ n ih =>
      intro ys hy c hc
      rcases eq_or_ne ys [] with rfl | hne
      · simp [parts_nil] at hc
      · rw [parts_cons L hL ys hne] at hc
        rcases List.mem_cons.mp hc with rfl | hmem
        · constructor
          · simp only [ne_eq, List.take_eq_nil_iff, not_or]
            exact ⟨by omega, hne⟩
          · simpa using List.length_take_le L ys
        · exact ih (ys.drop L) (by have := List.length_pos.mpr hne; simp [List.length_drop]; omega) c hmem
  exact main xs.length xs le_rfl

/-- C1 key step: the idx-th chunk window, expressed through partial sums. -/
lemma chunkWindow_diff (L : ℕ) (hL : 0 < L) (lines : List Line)
    (idx : ℕ) (hidx : idx < (lines.length + L - 1) / L) :
    (chunkWindow L lines idx ((lines.drop (idx * L)).take L)).2 -
      (chunkWindow L lines idx ((lines.drop (idx * L)).take L)).1 =
    ((durations lines).take (min ((idx + 1) * L) lines.length)).sum -
      ((durations lines).take (min (idx * L) lines.length)).sum := by
  have hlt : idx * L < lines.length := lt_ceilDiv_mul_lt lines.length L idx hL hidx
  have hlen : ((lines.drop (idx * L)).take L).length = min L (lines.length - idx * L) := by
    simp [List.length_take, List.length_drop]
  have hdl : (durations lines).length = lines.length := by simp [durations]
  have hIdxL : idx * L + L = (idx + 1) * L := by ring
  rcases Nat.le_total L (lines.length - idx * L) with hc | hc
  · have hlen2 : ((lines.drop (idx * L)).take L).length = L := by
      rw [hlen, min_eq_left hc]
    have h2 : (idx + 1) * L ≤ lines.length := by omega
    have hb1 : idx * L ≤ (durations lines).length := by rw [hdl]; omega
    have hb2 : idx * L + ((lines.drop (idx * L)).take L).length ≤ (durations lines).length := by
      rw [hdl, hlen2]; omega
    rw [chunkWindow]
    simp only
    rw [cumulative_getD _ _ hb1, cumulative_getD _ _ hb2]
    rw [hlen2, min_eq_left h2, min_eq_left (le_of_lt hlt), hIdxL]
  · have hlen2 : ((lines.drop (idx * L)).take L).length = lines.length - idx * L := by
      rw [hlen, min_eq_right hc]
    have h2 : lines.length ≤ (idx + 1) * L := by omega
    have hb1 : idx * L ≤ (durations lines).length := by rw [hdl]; omega
    have hb2 : idx * L + ((lines.drop (idx * L)).take L).length ≤ (durations lines).length := by
      rw [hdl, hlen2]; omega
    rw [chunkWindow]
    simp only
    rw [cumulative_getD _ _ hb1, cumulative_getD _ _ hb2]
    rw [hlen2, min_eq_right h2, min_eq_left (le_of_lt hlt)]
    have h3 : idx * L + (lines.length - idx * L) = lines.length := by omega
    rw [h3]

end ChunkBuilder

namespace ChunkBuilder

/-- C1: for every line sequence with per-line durations and every positive
chunk size, the sum of the computed chunk durations `t_end - t_start` over all
chunks (none is ever dropped) equals the sum of all line durations exactly:
the windows taken from the cumulative-offset array tile `[0, total]`. -/
theorem chunk_durations_tile_total (lines : List Line) (L : ℕ) (hL : 0 < L) :
    ((chunkWindows L lines).map (fun w => w.2 - w.1)).sum = (durations lines).sum := by
  rw [chunkWindows_eq_range, List.map_map]
  have hcong : ∀ idx ∈ List.range ((lines.length + L - 1) / L),
      ((fun w => w.2 - w.1) ∘ fun idx => chunkWindow L lines idx ((lines.drop (idx * L)).take L)) idx
        = (fun i => ((durations lines).take (min ((i + 1) * L) lines.length)).sum
            - ((durations lines).take (min (i * L) lines.length)).sum) idx := by
    intro idx hidx
    simp only [Function.comp_apply]
    exact chunkWindow_diff L hL lines idx (List.mem_range.mp hidx)
  rw [List.map_congr_left hcong]
  have htel := range_map_sub_sum
    (fun i => ((durations lines).take (min (i * L) lines.length)).sum)
    ((lines.length + L - 1) / L)
  simp only at htel
  rw [htel]
  have hkn : min ((lines.length + L - 1) / L * L) lines.length = lines.length :=
    min_eq_right (by simpa [Nat.mul_comm] using ceilDiv_mul_ge lines.length L hL)
  have hdl : (durations lines).length = lines.length := by simp [durations]
  have htake : (durations lines).take lines.length = durations lines := by
    rw [← hdl]
    exact List.take_length _
  rw [hkn, htake]
  simp

/-- Witness for C1 at scenario A with chunk size 2. -/
theorem chunk_durations_tile_total_witness :
    ((chunkWindows 2 exLines).map (fun w => w.2 - w.1)).sum = (durations exLines).sum :=
  chunk_durations_tile_total exLines 2 (by norm_num)

end ChunkBuilder

namespace ChunkBuilder

lemma parts_length (L : ℕ) (lines : List Line) :
    (parts L lines).length = (lines.length + L - 1) / L := by
  simp [parts]

lemma chunkWindows_getD (L : ℕ) (hL : 0 < L) (lines : List Line) (idx : ℕ)
    (hidx : idx < (parts L lines).length) :
    (chunkWindows L lines).getD idx (0, 0) =
      chunkWindow L lines idx ((lines.drop (idx * L)).take L) := by
  rw [parts_length] at hidx
  rw [chunkWindows_eq_range]
  rw [List.getD_eq_getElem?_getD, List.getElem?_map]
  rw [List.getElem?_range hidx]
  simp

lemma parts_getD (L : ℕ) (lines : List Line) (idx : ℕ)
    (hidx : idx < (parts L lines).length) :
    (parts L lines).getD idx [] = (lines.drop (idx * L)).take L := by
  rw [parts_length] at hidx
  rw [parts, List.getD_eq_getElem?_getD, List.getElem?_map, List.getElem?_range hidx]
  simp

/-- C2: the Chunk Partitioner splits the line sequence into consecutive
non-empty groups of at most `max_lines_per_chunk` lines, each group's window
runs from the timeline offset at its first line index to the offset at its
one-past-last line index (partial sums of the durations), and on scenario A
(durations `[2, 1.5, 3, 0.5, 2]`, chunk size 2) the chunks are `[0,2)`,
`[2,4)`, `[4,5)` with windows `[0,3.5)`, `[3.5,7)`, `[7,9)`, total `9`. -/
theorem chunk_partitioner_spec :
    (∀ (lines : List Line) (L : ℕ), 0 < L →
      (parts L lines).join = lines ∧
      (∀ c ∈ parts L lines, c ≠ [] ∧ c.length ≤ L) ∧
      (∀ idx, idx < (parts L lines).length →
        (chunkWindows L lines).getD idx (0, 0) =
          (((durations lines).take (idx * L)).sum,
           ((durations lines).take (idx * L + ((parts L lines).getD idx []).length)).sum))) ∧
    chunkWindows 2 exLines = [(0, 7/2), (7/2, 7), (7, 9)] ∧
    (parts 2 exLines).map List.length = [2, 2, 1] ∧
    (durations exLines).sum = 9 := by
  refine ⟨fun lines L hL => ⟨parts_join L hL lines, parts_mem_length L hL lines, ?_⟩, ?_, ?_, ?_⟩
  · intro idx hidx
    have hdl : (durations lines).length = lines.length := by simp [durations]
    have hlt : idx * L < lines.length := by
      rw [parts_length] at hidx
      exact lt_ceilDiv_mul_lt lines.length L idx hL hidx
    have hlen : ((lines.drop (idx * L)).take L).length = min L (lines.length - idx * L) := by
      simp [List.length_take, List.length_drop]
    rw [chunkWindows_getD L hL lines idx hidx, parts_getD L lines idx hidx, chunkWindow]
    have hb1 : idx * L ≤ (durations lines).length := by rw [hdl]; omega
    have hb2 : idx * L + ((lines.drop (idx * L)).take L).length ≤ (durations lines).length := by
      rw [hdl, hlen]
      rcases Nat.le_total L (lines.length - idx * L) with hc | hc
      · rw [min_eq_left hc]; omega
      · rw [min_eq_right hc]; omega
    rw [cumulative_getD _ _ hb1, cumulative_getD _ _ hb2]
  · simp [chunkWindows, chunkWindow, parts, cumulative, durations, exLines, List.range_succ,
      List.enum, List.enumFrom]
    norm_num
  · simp [parts, exLines, List.range_succ]
  · simp [durations, exLines]
    norm_num

/-- Witness for C2: the partition of scenario A concatenates back to it. -/
theorem chunk_partitioner_spec_witness : (parts 2 exLines).join = exLines :=
  (chunk_partitioner_spec.1 exLines 2 (by norm_num)).1

/-- C3 counterexample: a chunk whose computed duration is `0` (which is `≤`
any positive epsilon) is still rendered — it appears in `part_files` — and
when every chunk has zero duration the run still renders and concatenates
them all (there is no drop and no `EmptyOutputError` anywhere in the code). -/
theorem zero_duration_chunk_rendered :
    (renderedParts 1 zeroLines).getD 0 (99, 9, 9) = (0, 0, 0) ∧
    (renderedParts 1 zeroLines).length = 2 ∧
    (renderedParts 1 allZeroLines).getD 0 (99, 9, 9) = (0, 0, 0) ∧
    (renderedParts 1 allZeroLines).length = 1 := by
  refine ⟨?_, ?_, ?_, ?_⟩ <;>
    simp [renderedParts, chunkWindow, parts, cumulative, durations, zeroLines,
      allZeroLines, List.range_succ, List.enum, List.enumFrom]

/-- C3 amended: no chunk is ever dropped — the render loop emits exactly one
part file per chunk whatever its duration, and for a non-empty line sequence
the output list of rendered parts is never empty (the pipeline always
proceeds to concatenation; no `EmptyOutputError` exists). -/
theorem no_chunk_ever_dropped (L : ℕ) (lines : List Line) (hL : 0 < L)
    (hne : lines ≠ []) :
    (renderedParts L lines).length = (parts L lines).length ∧
    renderedParts L lines ≠ [] := by
  have hlen : (renderedParts L lines).length = (parts L lines).length := by
    simp [renderedParts]
  refine ⟨hlen, ?_⟩
  have hn : 0 < lines.length := List.length_pos.mpr hne
  have hk : 0 < (lines.length + L - 1) / L := by
    have h1 : 1 * L ≤ lines.length + L - 1 := by omega
    have := (Nat.le_div_iff_mul_le hL).mpr h1
    omega
  intro hcontra
  rw [← List.length_eq_zero] at hcontra
  rw [hlen, parts_length] at hcontra
  omega

/-- Witness for C3's amended claim on the all-zero-durations input. -/
theorem no_chunk_ever_dropped_witness :
    (renderedParts 1 allZeroLines).length = (parts 1 allZeroLines).length ∧
    renderedParts 1 allZeroLines ≠ [] :=
  no_chunk_ever_dropped 1 allZeroLines (by norm_num) (by simp [allZeroLines])

/-- C4 counterexample: the Duration Accumulator does not clamp negative
durations: on the duration list `[-1]` the produced offsets are `[0, -1]`,
which decrease, and the second offset differs from
`offset[0] + max(duration[0], 0) = 0`. -/
theorem negative_duration_not_clamped :
    cumulative [(-1 : ℚ)] = [0, -1] ∧
    (cumulative [(-1 : ℚ)]).getD 1 0 < (cumulative [(-1 : ℚ)]).getD 0 0 ∧
    (cumulative [(-1 : ℚ)]).getD 1 0 ≠ (cumulative [(-1 : ℚ)]).getD 0 0 + max (-1 : ℚ) 0 := by
  refine ⟨?_, ?_, ?_⟩ <;> simp [cumulative] <;> norm_num

/-- C4 amended: the accumulator applies no clamping: offsets start at `0` and
satisfy `offset[i+1] = offset[i] + duration[i]` exactly; they are
non-decreasing whenever every duration is non-negative (which the validated
inputs provide), but not in general. -/
theorem cumulative_offsets_exact (ds : List ℚ) :
    (cumulative ds).getD 0 0 = 0 ∧
    (∀ i, i < ds.length →
      (cumulative ds).getD (i + 1) 0 = (cumulative ds).getD i 0 + ds.getD i 0) ∧
    ((∀ d ∈ ds, 0 ≤ d) → ∀ i j, i ≤ j → j ≤ ds.length →
      (cumulative ds).getD i 0 ≤ (cumulative ds).getD j 0) := by
  have hrec : ∀ i, i < ds.length →
      (cumulative ds).getD (i + 1) 0 = (cumulative ds).getD i 0 + ds.getD i 0 := by
    intro i hi
    rw [cumulative_getD _ _ (by omega), cumulative_getD _ _ (by omega)]
    rw [List.getD_eq_getElem ds 0 hi]
    exact List.sum_take_succ ds i hi
  refine ⟨by rw [cumulative_getD _ _ (by omega)]; simp, hrec, ?_⟩
  intro hpos i j hij
  induction j, hij using Nat.le_induction with
  | base => intro _; exact le_rfl
  | succ j hij ih =>
    intro hj
    have hjlt : j < ds.length := by omega
    have h1 := ih (by omega)
    have h2 : 0 ≤ ds.getD j 0 := by
      rw [List.getD_eq_getElem ds 0 hjlt]
      exact hpos _ (List.getElem_mem hjlt)
    rw [hrec j hjlt]
    linarith

/-- Witness for C4's amended claim on the duration list `[2, 3]`. -/
theorem cumulative_offsets_exact_witness :
    (cumulative [(2 : ℚ), 3]).getD 0 0 = 0 ∧
    (cumulative [(2 : ℚ), 3]).getD 0 0 ≤ (cumulative [(2 : ℚ), 3]).getD 2 0 :=
  ⟨(cumulative_offsets_exact [(2 : ℚ), 3]).1,
   (cumulative_offsets_exact [(2 : ℚ), 3]).2.2
     (by intro d hd; simp [List.mem_cons] at hd; rcases hd with rfl | rfl <;> norm_num)
     0 2 (by omega) (by simp)⟩

end ChunkBuilder

namespace SubtitleVideo

/-- C6: after the placement and the final `overflow2` upward nudge, the
bottom of every placed caption element is at most `SCREEN_H - BOTTOM_MARGIN`.
This holds unconditionally — even when the font floor was hit the nudge fully
corrects the bottom edge, so the claimed "bounded excess" is in fact zero. -/
theorem caption_never_below_margin (rows : ℕ) (tch bch : ℤ)
    (htch : 0 ≤ tch) (hbch : 0 ≤ bch) :
    ∀ e ∈ placeBlock rows tch bch, e.y + e.h ≤ SCREEN_H - BOTTOM_MARGIN := by
  intro e he
  simp only [placeBlock, bgHeight, POS_Y, PAD_Y, LINE_GAP, BOTTOM_MARGIN, SCREEN_H] at he
  simp only [SCREEN_H, BOTTOM_MARGIN]
  by_cases hr : 2 ≤ rows
  · rw [if_pos hr] at he
    simp only [List.cons_append, List.nil_append] at he
    split at he
    next ho =>
      simp only [List.mem_map, List.mem_cons, List.not_mem_nil, or_false] at he
      obtain ⟨c, hc, rfl⟩ := he
      rcases hc with rfl | rfl | rfl | rfl <;> simp <;> omega
    next ho =>
      simp only [not_lt] at ho
      simp only [List.mem_cons, List.not_mem_nil, or_false] at he
      rcases he with rfl | rfl | rfl | rfl <;> simp <;> omega
  · rw [if_neg hr] at he
    split at he
    next ho =>
      simp only [List.mem_map, List.mem_cons, List.not_mem_nil, or_false] at he
      obtain ⟨c, hc, rfl⟩ := he
      rcases hc with rfl | rfl <;> simp <;> omega
    next ho =>
      simp only [not_lt] at ho
      simp only [List.mem_cons, List.not_mem_nil, or_false] at he
      rcases he with rfl | rfl <;> simp <;> omega

/-- Witness for C6: a two-row block with clip heights 100 and 80. -/
theorem caption_never_below_margin_witness :
    (⟨904, 132⟩ : VSpan) ∈ placeBlock 2 100 80 ∧
    (904 : ℤ) + 132 ≤ SCREEN_H - BOTTOM_MARGIN :=
  ⟨by decide,
   caption_never_below_margin 2 100 80 (by decide) (by decide) ⟨904, 132⟩ (by decide)⟩

end SubtitleVideo

namespace SubtitleVideo

/-- C5 counterexample: the shrink pass is applied exactly once, not iterated
until the block fits or the floor is reached.  With a renderer measuring
`top_bg.h = 40·fs_top` (rows = 1, base sizes 50/45) the single pass returns
font sizes `(40, 36)` and a re-measured height `1600`, whose block still
overflows the safe budget (`blockOverflow 1600 0 1 = 640 > 0`) while the top
size `40` is still above the `MIN_FONT_SIZE = 28` floor: the process stopped
neither at a fit nor at the floor. -/
theorem fit_not_iterated_to_fixpoint :
    layoutFit (fun ft _ => (40 * ft, 0)) 1 50 45 = (40, 36, 1600, 0) ∧
    0 < blockOverflow 1600 0 1 ∧
    MIN_FONT_SIZE < 40 := by
  refine ⟨?_, by decide, by decide⟩
  have hfit : fitBlockHeight 2000 0 1 50 45 = (40, 36, 1040) := by
    rw [fitBlockHeight]
    norm_num [blockOverflow, blockHeight, MIN_FONT_SIZE, POS_Y, BOTTOM_MARGIN,
      SCREEN_H, LINE_GAP]
  rw [layoutFit]
  norm_num [hfit]

/-- C5 amended: when the measured block height overflows the safe budget,
the layout engine shrinks both row font sizes a single time by a ratio
clamped to `[0.8, 0.95]` and re-measures once: the returned sizes never fall
below the `MIN_FONT_SIZE` floor (the floor always wins), never exceed the
configured sizes, and are at least `⌊0.8·fs⌋`; residual overflow is handled
by the placement nudge rather than by further font iteration. -/
theorem fit_shrinks_once_bounded (top_h bot_h fs_top fs_bot : ℤ) (rows : ℕ)
    (hov : 0 < blockOverflow top_h bot_h rows)
    (hft : MIN_FONT_SIZE ≤ fs_top) (hfb : MIN_FONT_SIZE ≤ fs_bot) :
    MIN_FONT_SIZE ≤ (fitBlockHeight top_h bot_h rows fs_top fs_bot).1 ∧
    MIN_FONT_SIZE ≤ (fitBlockHeight top_h bot_h rows fs_top fs_bot).2.1 ∧
    (fitBlockHeight top_h bot_h rows fs_top fs_bot).1 ≤ fs_top ∧
    (fitBlockHeight top_h bot_h rows fs_top fs_bot).2.1 ≤ fs_bot ∧
    ⌊(4/5 : ℚ) * (fs_top : ℚ)⌋ ≤ (fitBlockHeight top_h bot_h rows fs_top fs_bot).1 ∧
    ⌊(4/5 : ℚ) * (fs_bot : ℚ)⌋ ≤ (fitBlockHeight top_h bot_h rows fs_top fs_bot).2.1 ∧
    (fitBlockHeight top_h bot_h rows fs_top fs_bot).2.2 = blockOverflow top_h bot_h rows := by
  have h28t : (28 : ℤ) ≤ fs_top := by simpa [MIN_FONT_SIZE] using hft
  have h28b : (28 : ℤ) ≤ fs_bot := by simpa [MIN_FONT_SIZE] using hfb
  have h0t : (0 : ℚ) ≤ (fs_top : ℚ) := by exact_mod_cast (by omega : (0 : ℤ) ≤ fs_top)
  have h0b : (0 : ℚ) ≤ (fs_bot : ℚ) := by exact_mod_cast (by omega : (0 : ℤ) ≤ fs_bot)
  rw [fitBlockHeight]
  rw [if_neg (by omega)]
  set s : ℚ := max (4/5) (min (19/20)
    (1 - (blockOverflow top_h bot_h rows : ℚ) /
      ((max 1 (blockHeight top_h bot_h rows) : ℤ) : ℚ))) with hs
  have hs1 : (4/5 : ℚ) ≤ s := le_max_left _ _
  have hs2 : s ≤ 19/20 := max_le (by norm_num) (min_le_left _ _)
  have hfloor_top_le : ⌊(fs_top : ℚ) * s⌋ ≤ fs_top := by
    have h1 : (fs_top : ℚ) * s ≤ (fs_top : ℚ) :=
      mul_le_of_le_one_right h0t (hs2.trans (by norm_num))
    calc ⌊(fs_top : ℚ) * s⌋ ≤ ⌊(fs_top : ℚ)⌋ := Int.floor_mono h1
      _ = fs_top := Int.floor_intCast fs_top
  have hfloor_bot_le : ⌊(fs_bot : ℚ) * s⌋ ≤ fs_bot := by
    have h1 : (fs_bot : ℚ) * s ≤ (fs_bot : ℚ) :=
      mul_le_of_le_one_right h0b (hs2.trans (by norm_num))
    calc ⌊(fs_bot : ℚ) * s⌋ ≤ ⌊(fs_bot : ℚ)⌋ := Int.floor_mono h1
      _ = fs_bot := Int.floor_intCast fs_bot
  have hfloor_top_ge : ⌊(4/5 : ℚ) * (fs_top : ℚ)⌋ ≤ ⌊(fs_top : ℚ) * s⌋ := by
    apply Int.floor_mono
    calc (4/5 : ℚ) * (fs_top : ℚ) = (fs_top : ℚ) * (4/5) := by ring
      _ ≤ (fs_top : ℚ) * s := mul_le_mul_of_nonneg_left hs1 h0t
  have hfloor_bot_ge : ⌊(4/5 : ℚ) * (fs_bot : ℚ)⌋ ≤ ⌊(fs_bot : ℚ) * s⌋ := by
    apply Int.floor_mono
    calc (4/5 : ℚ) * (fs_bot : ℚ) = (fs_bot : ℚ) * (4/5) := by ring
      _ ≤ (fs_bot : ℚ) * s := mul_le_mul_of_nonneg_left hs1 h0b
  refine ⟨le_max_left _ _, le_max_left _ _, ?_, ?_, ?_, ?_, rfl⟩
  · exact max_le hft hfloor_top_le
  · exact max_le hfb hfloor_bot_le
  · exact hfloor_top_ge.trans (le_max_right _ _)
  · exact hfloor_bot_ge.trans (le_max_right _ _)

/-- Witness for C5's amended claim at heights (2000, 0), one row, sizes 50/45. -/
theorem fit_shrinks_once_bounded_witness :
    0 < blockOverflow 2000 0 1 ∧
    MIN_FONT_SIZE ≤ (fitBlockHeight 2000 0 1 50 45).1 ∧
    (fitBlockHeight 2000 0 1 50 45).1 ≤ 50 :=
  ⟨by decide,
   (fit_shrinks_once_bounded 2000 0 50 45 1 (by decide) (by decide) (by decide)).1,
   (fit_shrinks_once_bounded 2000 0 50 45 1 (by decide) (by decide) (by decide)).2.2.1⟩

end SubtitleVideo

namespace SubtitleVideo

lemma firstExisting_mem (env : FontEnv) : ∀ (ps : List (List Char)) (p : List Char),
    firstExisting env ps = some p → p ∈ ps := by
  intro ps
  induction ps with
  | nil => intro p h; simp [firstExisting] at h
  | cons q qs ih =>
    intro p h
    rw [firstExisting] at h
    split at h
    · rw [Option.some_inj] at h
      subst h
      exact List.mem_cons_self _ _
    · exact List.mem_cons_of_mem _ (ih p h)

/-- C8: font selection is a pure function of the text and the fixed
configuration (Unicode table, filesystem, font directory): a second call
with the same text returns the same path and leaves the environment
untouched, and the returned path is always one of the three configured font
files. -/
theorem pick_font_deterministic (env : FontEnv) (t : List Char) :
    (pickFontCall (pickFontCall env t).2 t).1 = (pickFontCall env t).1 ∧
    (pickFontCall env t).2 = env ∧
    pickFont env t ∈ [FONT_KO env, FONT_JP env, FONT_LATN env] := by
  refine ⟨rfl, rfl, ?_⟩
  induction t with
  | nil =>
    rw [pickFont]
    cases hfe : firstExisting env [FONT_LATN env, FONT_JP env, FONT_KO env] with
    | none => simp
    | some p =>
      have hmem := firstExisting_mem env _ p hfe
      simp only [Option.getD_some]
      simp only [List.mem_cons, List.not_mem_nil, or_false] at hmem ⊢
      tauto
  | cons ch rest ih =>
    rw [pickFont]
    simp only
    split
    · cases hfe : firstExisting env [FONT_KO env, FONT_JP env, FONT_LATN env] with
      | none => simp
      | some p =>
        have hmem := firstExisting_mem env _ p hfe
        simp only [hfe, Option.getD_some]
        simp only [List.mem_cons, List.not_mem_nil, or_false] at hmem ⊢
        tauto
    · split
      · cases hfe : firstExisting env [FONT_JP env, FONT_LATN env] with
        | none => simp
        | some p =>
          have hmem := firstExisting_mem env _ p hfe
          simp only [hfe, Option.getD_some]
          simp only [List.mem_cons, List.not_mem_nil, or_false] at hmem ⊢
          tauto
      · exact ih

end SubtitleVideo

namespace ChunkBuilder

/-- C9: the final join first attempts the fast stream-copy concat; the
re-encode fallback runs exactly when the fast join fails (the raised
`CalledProcessError` is swallowed, not surfaced), the fallback's command
carries the fixed codec/quality configuration, and a successful fallback
still yields the single output file. -/
theorem concat_fallback_iff (run : List (List Char) → Bool) (ct fm : List Char) :
    (concatResolve run ct fm = ConcatOutcome.copied ↔
      run (fastConcatCmd ct fm) = true) ∧
    (concatResolve run ct fm = ConcatOutcome.reencoded ↔
      (run (fastConcatCmd ct fm) = false ∧ run (reencodeConcatCmd ct fm) = true)) ∧
    (concatResolve run ct fm = ConcatOutcome.failed ↔
      (run (fastConcatCmd ct fm) = false ∧ run (reencodeConcatCmd ct fm) = false)) ∧
    ["-c:v".data, "libx264".data, "-preset".data, "medium".data, "-crf".data, "18".data,
     "-c:a".data, "aac".data, "-b:a".data, "192k".data] <:+: reencodeConcatCmd ct fm := by
  refine ⟨?_, ?_, ?_, ?_⟩
  · by_cases h1 : run (fastConcatCmd ct fm) <;>
      by_cases h2 : run (reencodeConcatCmd ct fm) <;>
        simp [concatResolve, h1, h2]
  · by_cases h1 : run (fastConcatCmd ct fm) <;>
      by_cases h2 : run (reencodeConcatCmd ct fm) <;>
        simp [concatResolve, h1, h2]
  · by_cases h1 : run (fastConcatCmd ct fm) <;>
      by_cases h2 : run (reencodeConcatCmd ct fm) <;>
        simp [concatResolve, h1, h2]
  · exact ⟨["ffmpeg".data, "-y".data, "-f".data, "concat".data, "-safe".data, "0".data,
      "-i".data, ct], ["-movflags".data, "+faststart".data, fm], rfl⟩

end ChunkBuilder

namespace SubtitleVideo

lemma clipDuration_ge (d : ℚ) : d ≤ clipDuration (some d) := by
  rw [clipDuration]
  simp only [Option.getD_some]
  split
  · linarith
  · exact le_rfl

lemma videoDuration_ge (ds : List ℚ) : ds.sum ≤ segmentVideoDuration ds := by
  induction ds with
  | nil => simp [segmentVideoDuration]
  | cons d tl ih =>
    have hseg : segmentVideoDuration (d :: tl) =
        clipDuration (some d) + segmentVideoDuration tl := by
      simp [segmentVideoDuration]
    rw [List.sum_cons, hseg]
    have := clipDuration_ge d
    linarith

lemma videoDuration_gt : ∀ (ds : List ℚ), (∃ d ∈ ds, d ≤ 0) →
    ds.sum < segmentVideoDuration ds := by
  intro ds
  induction ds with
  | nil => rintro ⟨d, hd, _⟩; simp at hd
  | cons d tl ih =>
    rintro ⟨d0, hmem, hle⟩
    have hseg : segmentVideoDuration (d :: tl) =
        clipDuration (some d) + segmentVideoDuration tl := by
      simp [segmentVideoDuration]
    rw [List.sum_cons, hseg]
    rcases List.mem_cons.mp hmem with rfl | hmem2
    · have h1 : d0 < clipDuration (some d0) := by
        rw [clipDuration]
        simp only [Option.getD_some]
        rw [if_pos hle]
        linarith
      have h2 := videoDuration_ge tl
      linarith
    · have h1 := clipDuration_ge d
      have h2 := ih ⟨d0, hmem2, hle⟩
      linarith

/-- C10 counterexample: a record with no duration field is rendered for the
default `1.0` second, not `0.8`. -/
theorem missing_duration_defaults_to_one :
    clipDuration none = 1 ∧ clipDuration none ≠ 4/5 := by
  constructor <;> norm_num [clipDuration]

/-- C10 amended: a present duration that is zero or negative is replaced by
a fixed positive `0.8` seconds (a missing field instead defaults to `1.0`),
so the rendered segment's video duration strictly exceeds its chunk's audio
window (the raw duration sum) as soon as one line has non-positive
duration. -/
theorem nonpositive_duration_renders_fixed (ds : List ℚ) (hex : ∃ d ∈ ds, d ≤ 0) :
    (∀ d : ℚ, d ≤ 0 → clipDuration (some d) = 4/5) ∧
    clipDuration none = 1 ∧
    ds.sum < segmentVideoDuration ds := by
  refine ⟨?_, by norm_num [clipDuration], videoDuration_gt ds hex⟩
  intro d hd
  rw [clipDuration]
  simp only [Option.getD_some]
  rw [if_pos hd]

/-- Witness for C10's amended claim on durations `[0, 1]`. -/
theorem nonpositive_duration_renders_fixed_witness :
    clipDuration (some 0) = 4/5 ∧
    [(0 : ℚ), 1].sum < segmentVideoDuration [(0 : ℚ), 1] :=
  ⟨(nonpositive_duration_renders_fixed [(0 : ℚ), 1] ⟨0, by simp, le_rfl⟩).1 0 le_rfl,
   (nonpositive_duration_renders_fixed [(0 : ℚ), 1] ⟨0, by simp, le_rfl⟩).2.2⟩

end SubtitleVideo

namespace SubtitleVideo

lemma pySplitlinesGo_nonbreak : ∀ (s cur : List Char),
    (∀ c ∈ s, lineBreakChar c = false) →
    pySplitlinesGo cur s = if cur = [] ∧ s = [] then [] else [cur.reverse ++ s] := by
  intro s
  induction s with
  | nil =>
    intro cur _
    simp only [pySplitlinesGo]
    by_cases h : cur = [] <;> simp [h]
  | cons c rest ih =>
    intro cur hnb
    have hc : lineBreakChar c = false := hnb c (by simp)
    cases rest with
    | nil =>
      simp [pySplitlinesGo, hc]
    | cons c2 cs =>
      have hcr : ¬ (c = '\r' ∧ c2 = '\n') := by
        rintro ⟨rfl, _⟩
        simp [lineBreakChar] at hc
      simp only [pySplitlinesGo]
      rw [if_neg hcr, if_neg (by simp [hc])]
      rw [ih (c :: cur) (fun x hx => hnb x (List.mem_cons_of_mem _ hx))]
      simp

lemma pySplitlinesGo_through : ∀ (p : List Char), (∀ c ∈ p, lineBreakChar c = false) →
    ∀ (cur r : List Char),
    pySplitlinesGo cur (p ++ '\n' :: r) = (cur.reverse ++ p) :: pySplitlinesGo [] r := by
  intro p
  induction p with
  | nil =>
    intro _ cur r
    rw [List.nil_append]
    cases r with
    | nil =>
      simp [pySplitlinesGo, lineBreakChar]
    | cons d ds =>
      simp only [pySplitlinesGo]
      rw [if_neg (by rintro ⟨h, _⟩; exact absurd h (by decide))]
      rw [if_pos (by decide)]
      simp
  | cons c p2 ih =>
    intro hnb cur r
    have hc : lineBreakChar c = false := hnb c (by simp)
    have hcr : c ≠ '\r' := by
      rintro rfl
      simp [lineBreakChar] at hc
    cases p2 with
    | nil =>
      rw [List.cons_append, List.nil_append]
      simp only [pySplitlinesGo]
      rw [if_neg (by rintro ⟨h, _⟩; exact absurd h hcr)]
      rw [if_neg (by simp [hc])]
      have := ih (by simp) (c :: cur) r
      rw [List.nil_append] at this
      rw [this]
      simp
    | cons d p3 =>
      rw [List.cons_append]
      have hrest : (d :: p3) ++ '\n' :: r = d :: (p3 ++ '\n' :: r) := by simp
      rw [hrest]
      simp only [pySplitlinesGo]
      rw [if_neg (by rintro ⟨h, _⟩; exact absurd h hcr)]
      rw [if_neg (by simp [hc])]
      have := ih (fun x hx => hnb x (List.mem_cons_of_mem _ hx)) (c :: cur) r
      rw [hrest] at this
      rw [this]
      simp

lemma pySplitlinesGo_pieces_nonbreak : ∀ (n : ℕ) (s cur : List Char), s.length ≤ n →
    (∀ c ∈ cur, lineBreakChar c = false) →
    ∀ p ∈ pySplitlinesGo cur s, ∀ c ∈ p, lineBreakChar c = false := by
  intro n
  induction n with
  | zero =>
    intro s cur hlen hcur p hp
    have hs : s = [] := List.eq_nil_of_length_eq_zero (by omega)
    subst hs
    simp only [pySplitlinesGo] at hp
    split at hp
    · simp at hp
    · simp only [List.mem_singleton] at hp
      subst hp
      intro c hc
      exact hcur c (by simpa using hc)
  | succ n ih =>
    intro s cur hlen hcur p hp
    rcases s with _ | ⟨c, _ | ⟨c2, cs⟩⟩
    · simp only [pySplitlinesGo] at hp
      split at hp
      · simp at hp
      · simp only [List.mem_singleton] at hp
        subst hp
        intro c hc
        exact hcur c (by simpa using hc)
    · simp only [pySplitlinesGo] at hp
      split at hp
      · simp only [List.mem_singleton] at hp
        subst hp
        intro x hx
        exact hcur x (by simpa using hx)
      · rename_i hbr
        simp only [List.mem_singleton] at hp
        subst hp
        intro x hx
        rw [List.mem_reverse] at hx
        rcases List.mem_cons.mp hx with rfl | hx2
        · simpa using hbr
        · exact hcur x hx2
    · simp only [pySplitlinesGo] at hp
      split at hp
      · rcases List.mem_cons.mp hp with rfl | hp2
        · intro x hx
          exact hcur x (by simpa using hx)
        · exact ih cs [] (by simp at hlen ⊢; omega) (by simp) p hp2
      · split at hp
        · rcases List.mem_cons.mp hp with rfl | hp2
          · intro x hx
            exact hcur x (by simpa using hx)
          · exact ih (c2 :: cs) [] (by simp at hlen ⊢; omega) (by simp) p hp2
        · rename_i hbr
          refine ih (c2 :: cs) (c :: cur) (by simp at hlen ⊢; omega) ?_ p hp
          intro x hx
          rcases List.mem_cons.mp hx with rfl | hx2
          · simpa using hbr
          · exact hcur x hx2

lemma splitlines_pieces_nonbreak (t : List Char) :
    ∀ p ∈ pySplitlines t, ∀ c ∈ p, lineBreakChar c = false :=
  pySplitlinesGo_pieces_nonbreak t.length t [] le_rfl (by simp)

lemma linesOrEmpty_cases (t : List Char) :
    linesOrEmpty t = pySplitlines t ∨ linesOrEmpty t = [[]] := by
  rw [linesOrEmpty]
  cases pySplitlines t <;> simp

lemma linesOrEmpty_pieces_nonbreak (t : List Char) :
    ∀ p ∈ linesOrEmpty t, ∀ c ∈ p, lineBreakChar c = false := by
  rcases linesOrEmpty_cases t with h | h
  · rw [h]
    exact splitlines_pieces_nonbreak t
  · rw [h]
    intro p hp
    simp at hp
    subst hp
    intro c hc
    simp at hc

/-- Round trip: joining break-free lines whose last line is non-empty and
re-splitting recovers them. -/
lemma splitlines_joinNL : ∀ (ps : List (List Char)),
    (∀ p ∈ ps, ∀ c ∈ p, lineBreakChar c = false) →
    ps ≠ [] →
    (∀ q, ps.getLast? = some q → q ≠ []) →
    pySplitlines (joinNL ps) = ps := by
  intro ps
  induction ps with
  | nil => intro _ h _; exact absurd rfl h
  | cons p ps ih =>
    intro hnb _ hlast
    cases ps with
    | nil =>
      have hp : p ≠ [] := hlast p (by simp)
      rw [joinNL, pySplitlines]
      rw [pySplitlinesGo_nonbreak p [] (hnb p (List.mem_cons_self _ _))]
      simp [hp]
    | cons q qs =>
      rw [joinNL, pySplitlines]
      rw [pySplitlinesGo_through p (hnb p (List.mem_cons_self _ _)) [] (joinNL (q :: qs))]
      have ihq : pySplitlines (joinNL (q :: qs)) = q :: qs := by
        refine ih (fun x hx => hnb x (List.mem_cons_of_mem _ hx)) (by simp) ?_
        intro r hr
        refine hlast r ?_
        rw [List.getLast?_cons_cons]
        exact hr
      rw [pySplitlines] at ihq
      rw [ihq]
      simp

lemma pyRstrip_subset (s : List Char) : ∀ c ∈ pyRstrip s, c ∈ s := by
  intro c hc
  rw [pyRstrip] at hc
  rw [List.mem_reverse] at hc
  have := (List.dropWhile_sublist (l := s.reverse) (p := pySpace)).mem hc
  simpa using this

end SubtitleVideo

namespace SubtitleVideo

lemma getLast?_mem_of_eq {α : Type} : ∀ (l : List α) (a : α), l.getLast? = some a → a ∈ l := by
  intro l
  induction l with
  | nil => intro a h; simp at h
  | cons x xs ih =>
    intro a h
    cases xs with
    | nil =>
      simp at h
      subst h
      simp
    | cons y ys =>
      rw [List.getLast?_cons_cons] at h
      exact List.mem_cons_of_mem _ (ih a h)

lemma getLastD_mem {α : Type} (l : List α) (d : α) (h : l ≠ []) : l.getLast?.getD d ∈ l := by
  cases hl : l.getLast? with
  | none =>
    rw [List.getLast?_eq_none_iff] at hl
    exact absurd hl h
  | some a =>
    simp only [Option.getD_some]
    exact getLast?_mem_of_eq l a hl

/-- C7 counterexample: `wrap_latn` does break a hyphenated compound — a
41-character input containing no whitespace at all (a single word) comes
back with a line break after its hyphen at the production width 36,
contradicting "wrapped at word boundaries, preferring not to break
hyphenated compounds"; and `wrap_cjk` is not a fixed character-count chop —
a CJK text with an internal space wraps at the space, not at character 16,
contradicting "no word-boundary concept". -/
theorem wrap_not_as_claimed :
    (latnCompound.all (fun c => !(wsChar c) && !(pySpace c)) = true ∧
      '\n' ∈ wrapLatn latnCompound 36) ∧
    wrapCjk cjkSpaced 16 ≠ specChopWrap 16 cjkSpaced :=
  ⟨⟨by decide, by decide⟩, by decide⟩

/-- C7 amended: CJK text wraps greedily at character width 16 with unspaced
runs chopped exactly at the width, but whitespace still acts as a break
point; Latin-script text wraps at word boundaries without chopping long
words, but hyphenated compounds may be broken after a hyphen; and wrapped
output exceeding the maximum line count is truncated to exactly that count
with an ellipsis appended to the last kept line if and only if truncation
occurred. -/
theorem wrap_and_trim_amended :
    wrapCjk (List.replicate 20 'あ') 16 =
      List.replicate 16 'あ' ++ '\n' :: List.replicate 4 'あ' ∧
    wrapCjk cjkSpaced 16 = List.replicate 10 'あ' ++ '\n' :: List.replicate 10 'い' ∧
    wrapLatn (List.replicate 41 'a') 36 = List.replicate 41 'a' ∧
    wrapLatn latnCompound 36 =
      List.replicate 20 'a' ++ '-' :: '\n' :: List.replicate 20 'b' ∧
    (∀ (t : List Char) (m : ℕ), (linesOrEmpty t).length ≤ m →
      trimLines t m = joinNL (linesOrEmpty t)) ∧
    (∀ (t : List Char) (m : ℕ), 1 ≤ m → m < (linesOrEmpty t).length →
      (pySplitlines (trimLines t m)).length = m ∧
      ∃ rest, (pySplitlines (trimLines t m)).getLast? = some (rest ++ ['…'])) := by
  refine ⟨by decide, by decide, by decide, by decide, ?_, ?_⟩
  · intro t m h
    simp only [trimLines]
    rw [if_pos h]
  · intro t m hm1 hm2
    have hkeptlen : ((linesOrEmpty t).take m).length = m := by
      rw [List.length_take]
      omega
    have hkeptne : (linesOrEmpty t).take m ≠ [] := by
      intro hcon
      have := congrArg List.length hcon
      rw [hkeptlen] at this
      simp at this
      omega
    have hround : pySplitlines (trimLines t m) =
        ((linesOrEmpty t).take m).dropLast ++
          [pyRstrip (((linesOrEmpty t).take m).getLast?.getD []) ++ ['…']] := by
      have htrim : trimLines t m =
          joinNL (((linesOrEmpty t).take m).dropLast ++
            [pyRstrip (((linesOrEmpty t).take m).getLast?.getD []) ++ ['…']]) := by
        simp only [trimLines]
        rw [if_neg (by omega)]
      rw [htrim]
      apply splitlines_joinNL
      · intro p hp
        rcases List.mem_append.mp hp with hp1 | hp2
        · have hmem : p ∈ linesOrEmpty t :=
            (List.take_sublist m _).mem ((List.dropLast_sublist _).mem hp1)
          exact linesOrEmpty_pieces_nonbreak t p hmem
        · simp only [List.mem_singleton] at hp2
          subst hp2
          intro c hc
          rcases List.mem_append.mp hc with hc1 | hc2
          · have hlastmem : ((linesOrEmpty t).take m).getLast?.getD [] ∈ linesOrEmpty t :=
              (List.take_sublist m _).mem (getLastD_mem _ [] hkeptne)
            exact linesOrEmpty_pieces_nonbreak t _ hlastmem c (pyRstrip_subset _ c hc1)
          · simp only [List.mem_singleton] at hc2
            subst hc2
            decide
      · simp
      · intro q hq
        rw [List.getLast?_concat] at hq
        rw [Option.some_inj] at hq
        subst hq
        simp
    constructor
    · rw [hround]
      simp only [List.length_append, List.length_dropLast, hkeptlen, List.length_singleton]
      omega
    · rw [hround, List.getLast?_concat]
      exact ⟨_, rfl⟩

/-- Witness for C7's amended claim: no truncation on a one-line text at
limit 3; one line kept on a three-line text at limit 1. -/
theorem wrap_and_trim_amended_witness :
    trimLines ['x'] 3 = joinNL (linesOrEmpty ['x']) ∧
    (pySplitlines (trimLines ['a', '\n', 'b', '\n', 'c'] 1)).length = 1 :=
  ⟨wrap_and_trim_amended.2.2.2.2.1 ['x'] 3 (by decide),
   (wrap_and_trim_amended.2.2.2.2.2 ['a', '\n', 'b', '\n', 'c'] 1 (by decide) (by decide)).1⟩

end SubtitleVideo
